import Mathlib

/-!
Verification of the traversal and pattern-filtering core of
`packages/utility/src/utilityHelperFunctions.ts`.

The development shallowly embeds the two algorithmic components of the file:

* `find` (the explicit-stack tree walker, source lines 94-164), over an
  inductive snapshot of the filesystem seen by the walk.  The filesystem
  primitives `fs.lstatSync` / `fs.readdirSync` and the `path` module are
  external collaborators of the source; they are modelled by the tree
  constructors and by `normalizePath` / `joinP`.
* `match` (the include/exclude glob filter, source lines 220-346) together
  with its helpers `_startsWith`, `_endsWith`, `_isRooted`, `_ensureRooted`
  and `_normalizeSeparators`.  The external `minimatch` engine is abstracted
  as a per-path boolean predicate parameter `glob` (plus a `braceExpand`
  parameter), exactly the interface the source consumes.

JavaScript strings are modelled through their character lists (`String.data`);
`process.platform == "win32"` is a boolean parameter `win32`.
-/

/-- Character class used by the JavaScript `String.prototype.trim`. -/
def isJsSpace (c : Char) : Bool := c.isWhitespace

/-- Model of the JavaScript `String.prototype.trim`: drop leading and trailing
whitespace. -/
def jsTrim (s : String) : String :=
  ⟨((s.data.dropWhile isJsSpace).reverse.dropWhile isJsSpace).reverse⟩

/-- Model of the source helper `_startsWith(str, start)`
(`str.slice(0, start.length) == start`). -/
def startsWithStr (s t : String) : Bool :=
  t.data.isPrefixOf s.data

/-- Model of the source helper `_endsWith(str, end)`
(`str.slice(-end.length) == end`). -/
def endsWithStr (s t : String) : Bool :=
  t.data.isSuffixOf s.data

/-- `s.indexOf(c) >= 0` for a single character. -/
def containsChar (s : String) (c : Char) : Bool :=
  s.data.contains c

/-- Collapse every run of two or more copies of `sep` to a single copy,
leaving other characters untouched.  This is the effect of the source
regular-expression replacements that remove redundant separators. -/
def collapseRuns (sep : Char) : List Char → List Char
  | [] => []
  | c :: rest =>
    match rest with
    | [] => [c]
    | d :: _ => if c = sep && d = sep then collapseRuns sep rest else c :: collapseRuns sep rest

/-- Modelled from the spec: `find` first calls `path.normalize` (an external
collaborator, spec section 4.1 step 1: collapse redundant separators in the
host separator style); the traversal claims are platform-agnostic, so the
posix form is used. -/
def normalizePath (p : String) : String :=
  ⟨collapseRuns '/' p.data⟩

/-- The directory path `p` extended with a trailing separator unless it
already ends in one. -/
def pSlash (p : String) : String :=
  if endsWithStr p "/" then p else p ++ "/"

/-- Modelled from the spec: `path.join(parent, childName)` (external `path`
module) for the inputs the walker produces, namely a normalized directory
path and a plain `readdir` entry name: append the name after exactly one
separator. -/
def joinP (p name : String) : String :=
  pSlash p ++ name

/-- `a` is a string prefix of `b`. -/
def sPre (a b : String) : Prop :=
  ∃ s : String, b = a ++ s

/-- Snapshot of the part of the filesystem inspected by one `find` call.
`fs.lstatSync` answers about the node itself: a `symlink` node reports
non-directory stats regardless of its `target`; `statErr code` is an entry
whose `lstat` raises an error with the given `code`; `readErr code` is a
directory whose `lstat` succeeds but whose `readdirSync` raises.  Directory
children are listed in the order `readdirSync` returns them. -/
inductive FSNode where
  | file : FSNode
  | symlink (target : FSNode) : FSNode
  | statErr (code : String) : FSNode
  | readErr (code : String) : FSNode
  | dir (children : List (String × FSNode)) : FSNode
deriving Repr

/-- Modelled from the spec: a Node `fs` error message names the failed
syscall and the offending path, and the wrapper in `find` only re-exposes
`err.message`. -/
def lstatFailMsg (code p : String) : String :=
  code ++ ", lstat " ++ p

/-- Modelled from the spec: `readdirSync` failure message, carrying the
offending path. -/
def scandirFailMsg (code p : String) : String :=
  code ++ ", scandir " ++ p

/-- The `_FindItem` class of the source (lines 166-174): a pending path with
its depth, here together with the snapshot node the path denotes. -/
structure FindItem where
  path : String
  level : Nat
  node : FSNode
deriving Repr

mutual

/-- Number of nodes of the snapshot; termination measure for the stack loop. -/
def FSNode.size : FSNode → Nat
  | .dir cs => 1 + childrenSize cs
  | _ => 1

def childrenSize : List (String × FSNode) → Nat
  | [] => 0
  | (_, node) :: rest => node.size + childrenSize rest

end

/-- Total size of the nodes still on the work stack. -/
def stackWeight : List FindItem → Nat
  | [] => 0
  | it :: rest => it.node.size + stackWeight rest

/-- Source lines 149-151: the child items are pushed onto the stack in
reverse index order, so the first child ends on top; the resulting stack is
therefore `items ++ stack`. -/
def pushInReverse (items stack : List FindItem) : List FindItem :=
  items ++ stack

/-- The `while (stack.length)` loop of `find` (source lines 127-156), with
the surrounding `try`/`catch` of lines 120-163: the popped path is appended
to the result, the item is `lstat`-ed without following symlinks, a
directory has its children pushed in reverse order, and any stat or readdir
error aborts the walk with a message prefixed by `Failed find: `. -/
def findLoop : List FindItem → List String → Except String (List String)
  | [], result => .ok result
  | ⟨p, _, .statErr code⟩ :: _, _ =>
    .error ("Failed find: " ++ lstatFailMsg code p)
  | ⟨p, _, .readErr code⟩ :: _, _ =>
    .error ("Failed find: " ++ scandirFailMsg code p)
  | ⟨p, lvl, .dir cs⟩ :: rest, result =>
    findLoop (pushInReverse (cs.map fun c => FindItem.mk (joinP p c.1) (lvl + 1) c.2) rest)
      (result ++ [p])
  | ⟨p, _, .file⟩ :: rest, result => findLoop rest (result ++ [p])
  | ⟨p, _, .symlink _⟩ :: rest, result => findLoop rest (result ++ [p])
termination_by stack _ => stackWeight stack
decreasing_by
  · have happ : ∀ a b : List FindItem, stackWeight (a ++ b) = stackWeight a + stackWeight b := by
      intro a b
      induction a with
      | nil => simp [stackWeight]
      | cons x xs ih => simp [stackWeight, ih]; omega
    have hmap : ∀ (cs : List (String × FSNode)) (f : String × FSNode → FindItem),
        (∀ c, (f c).node = c.2) → stackWeight (cs.map f) = childrenSize cs := by
      intro cs f hf
      induction cs with
      | nil => simp [stackWeight, childrenSize]
      | cons c rest ih =>
        obtain ⟨name, node⟩ := c
        simp [stackWeight, childrenSize, ih, hf ⟨name, node⟩]
    simp only [pushInReverse, happ, stackWeight, FSNode.size]
    rw [hmap cs _ (fun c => rfl)]
    omega
  · simp [stackWeight, FSNode.size]
  · simp [stackWeight, FSNode.size]

/-- The source `find` (lines 94-164): empty path short-circuits to `[]`
before any filesystem access, the path is normalized, a failing initial
`lstat` yields `[]` on `ENOENT` and rethrows the raw error otherwise, and
the stack loop does the traversal. -/
def find (fs : FSNode) (findPath : String) : Except String (List String) :=
  if findPath = "" then .ok []
  else
    let findPath := normalizePath findPath
    match fs with
    | .statErr code =>
      if code = "ENOENT" then .ok []
      else .error (lstatFailMsg code findPath)
    | n => findLoop [FindItem.mk findPath 1 n] []

mutual

/-- Recursive description of the walk order: a node contributes its own path
first, then the subtrees of its children in listing order; symlinks and
error nodes are leaves for this description. -/
def preorder (p : String) : FSNode → List String
  | .dir cs => p :: preorderChildren p cs
  | _ => [p]

def preorderChildren (p : String) : List (String × FSNode) → List String
  | [] => []
  | (name, node) :: rest => preorder (joinP p name) node ++ preorderChildren p rest

end

mutual

/-- No `statErr`/`readErr` node anywhere in the traversed part of the
snapshot (a symlink target is never traversed, hence never inspected). -/
def FSNode.errorFree : FSNode → Bool
  | .statErr _ => false
  | .readErr _ => false
  | .dir cs => childrenErrorFree cs
  | _ => true

def childrenErrorFree : List (String × FSNode) → Bool
  | [] => true
  | (_, node) :: rest => node.errorFree && childrenErrorFree rest

end

/-- An entry name as returned by a real `readdir`: nonempty and free of the
path separator. -/
def simpleName (s : String) : Bool :=
  !(s == "") && !(s.data.contains '/')

/-- All strings in the list are pairwise distinct. -/
def distinctList : List String → Bool
  | [] => true
  | x :: xs => !(xs.contains x) && distinctList xs

mutual

/-- Well-formed directory listings: every directory lists distinct, simple
child names (true of a real filesystem snapshot). -/
def FSNode.wfNames : FSNode → Bool
  | .dir cs => distinctList (cs.map Prod.fst) && childrenWf cs
  | _ => true

def childrenWf : List (String × FSNode) → Bool
  | [] => true
  | (name, node) :: rest => simpleName name && node.wfNames && childrenWf rest

end

mutual

/-- Replace every symlink of the snapshot by a plain file, i.e. forget all
symlink targets. -/
def delink : FSNode → FSNode
  | .symlink _ => .file
  | .dir cs => .dir (delinkChildren cs)
  | n => n

def delinkChildren : List (String × FSNode) → List (String × FSNode)
  | [] => []
  | (name, node) :: rest => (name, delink node) :: delinkChildren rest

end

/-- The paths of the subtree: `Reach root n p m` holds when the entry at
`p` (with snapshot node `m`) is the root itself or is obtained by repeatedly
descending into a listed child of a directory. -/
inductive Reach : String → FSNode → String → FSNode → Prop where
  | here (p : String) (n : FSNode) : Reach p n p n
  | step {p : String} {cs : List (String × FSNode)} {name : String} {m : FSNode}
      {q : String} {k : FSNode} :
      (name, m) ∈ cs → Reach (joinP p name) m q k → Reach p (.dir cs) q k

/-- The `MatchOptions` interface of the source (lines 176-188); the optional
JavaScript booleans are modelled as plain booleans (absent = `false`). -/
structure MatchOptions where
  debug : Bool
  nobrace : Bool
  noglobstar : Bool
  dot : Bool
  noext : Bool
  nocase : Bool
  nonull : Bool
  matchBase : Bool
  nocomment : Bool
  nonegate : Bool
  flipNegate : Bool
deriving Repr, DecidableEq

/-- `_getDefaultMatchOptions` (source lines 190-204); `nocase` defaults to
`process.platform == "win32"`. -/
def defaultMatchOptions (win32 : Bool) : MatchOptions :=
  { debug := false, nobrace := true, noglobstar := false, dot := true,
    noext := false, nocase := win32, nonull := false, matchBase := false,
    nocomment := false, nonegate := false, flipNegate := false }

/-- Modelled from the spec: the external `minimatch.match(list, pattern,
options)` call filters the list by the single-path minimatch predicate
(abstracted as the parameter `glob`), and with `nonull` set returns
`[pattern]` when nothing matched. -/
def minimatchMatch (glob : MatchOptions → String → String → Bool)
    (list : List String) (pattern : String) (options : MatchOptions) : List String :=
  let ms := list.filter fun item => glob options pattern item
  if options.nonull && ms.isEmpty then [pattern] else ms

/-- `map[matchResult] = true` on the accumulating hashtable (source line
325), modelled as a duplicate-free key list. -/
def insertKey (map : List String) (k : String) : List String :=
  if map.contains k then map else map ++ [k]

/-- `delete map[matchResult]` (source line 336). -/
def removeKey (map : List String) (k : String) : List String :=
  map.filter fun x => !(x == k)

/-- The negation scan of source lines 258-268: count the leading `!`
characters and strip them. -/
def stripLeadingBangs (p : String) : Nat × String :=
  let n := (p.data.takeWhile fun c => c == '!').length
  (n, ⟨p.data.drop n⟩)

/-- The include/exclude decision of source lines 270-272. -/
def isIncludeOf (flipNegate : Bool) (negateCount : Nat) : Bool :=
  negateCount == 0 ||
    (negateCount % 2 == 0 && !flipNegate) ||
    (negateCount % 2 == 1 && flipNegate)

/-- `pattern.replace(/\\/g, "/")`, applied on win32 before brace expansion
and before the separator test of the rooting condition. -/
def slashify (win32 : Bool) (p : String) : String :=
  if win32 then ⟨p.data.map fun c => if c = '\\' then '/' else c⟩ else p

/-- `_normalizeSeparators` (source lines 411-424): on win32 convert slashes
to backslashes and collapse runs, keeping a leading double backslash for UNC
paths; on posix collapse slash runs. -/
def normalizeSeparators (win32 : Bool) (p : String) : String :=
  if win32 then
    let q : List Char := p.data.map fun c => if c = '/' then '\\' else c
    let lead := (q.takeWhile fun c => c == '\\').length
    let isUnc := decide (2 ≤ lead) && !(q.drop lead).isEmpty
    (if isUnc then "\\" else "") ++ ⟨collapseRuns '\\' q⟩
  else
    ⟨collapseRuns '/' p.data⟩

/-- The drive-letter test `/^[A-Z]:/i` of `_isRooted`. -/
def startsWithDrive (p : String) : Bool :=
  match p.data with
  | a :: b :: _ => a.isAlpha && b == ':'
  | _ => false

/-- The bare-drive test `/^[A-Z]:$/i` of `_ensureRooted`. -/
def isBareDrive (p : String) : Bool :=
  match p.data with
  | [a, b] => a.isAlpha && b == ':'
  | _ => false

/-- `_isRooted` (source lines 369-381).  The source throws on an empty
argument; `match` only calls it on nonempty patterns, and the theorems carry
that precondition. -/
def isRooted (win32 : Bool) (p0 : String) : Bool :=
  let p := normalizeSeparators win32 p0
  if win32 then startsWithStr p "\\" || startsWithDrive p
  else startsWithStr p "/"

/-- `_ensureRooted` (source lines 383-409): no-op on a rooted path, direct
concatenation after a bare drive root, otherwise concatenation with exactly
one separator inserted unless the root already ends in one.  The source
throws on empty arguments; callers guarantee nonemptiness and the theorems
carry that precondition. -/
def ensureRooted (win32 : Bool) (root p : String) : String :=
  if isRooted win32 p then p
  else if win32 && isBareDrive root then root ++ p
  else if endsWithStr root "/" || (win32 && endsWithStr root "\\") then root ++ p
  else root ++ (if win32 then "\\" else "/") ++ p

/-- The rooting step of source lines 307-315: root the sub-pattern when a
nonempty `patternRoot` was supplied, the sub-pattern is not already rooted,
and `matchBase` is off or the (slash-normalized) sub-pattern contains a
separator. -/
def rootedPattern (win32 : Bool) (patternRoot : Option String)
    (options : MatchOptions) (pattern : String) : String :=
  match patternRoot with
  | none => pattern
  | some root =>
    if !(root == "") && !(isRooted win32 pattern) &&
        (!options.matchBase || containsChar (slashify win32 pattern) '/') then
      ensureRooted win32 root pattern
    else pattern

/-- Body of the inner loop over the brace-expanded sub-patterns (source
lines 295-339): trim and skip empty, root, apply `minimatch.match` against
the full input `list`, then union (include) or subtract (exclude) the
matches on the accumulating key set. -/
def applyPatternAtom (glob : MatchOptions → String → String → Bool) (win32 : Bool)
    (patternRoot : Option String) (options : MatchOptions) (isIncludePattern : Bool)
    (list : List String) (map : List String) (pattern0 : String) : List String :=
  let pattern := jsTrim pattern0
  if pattern == "" then map
  else
    let pattern := rootedPattern win32 patternRoot options pattern
    let matchResults := minimatchMatch glob list pattern options
    if isIncludePattern then matchResults.foldl insertKey map
    else matchResults.foldl removeKey map

/-- Body of the outer `for (let pattern of patterns)` loop (source lines
235-340): trim and skip empty, clone the caller options, skip comments and
force `nocomment`, scan and strip leading `!` to classify include/exclude
and force `nonegate`/`flipNegate` off, brace-expand (or not) and force
`nobrace`, then process each expanded sub-pattern. -/
def processPattern (glob : MatchOptions → String → String → Bool)
    (braceExpand : String → List String) (win32 : Bool) (patternRoot : Option String)
    (originalOptions : MatchOptions) (list : List String)
    (map : List String) (pattern0 : String) : List String :=
  let pattern := jsTrim pattern0
  if pattern == "" then map
  else
    let options := originalOptions
    if !options.nocomment && startsWithStr pattern "#" then map
    else
      let options := { options with nocomment := true }
      let scan := if !options.nonegate then stripLeadingBangs pattern else (0, pattern)
      let negateCount := scan.1
      let pattern := scan.2
      let isIncludePattern := isIncludeOf options.flipNegate negateCount
      let options := { options with nonegate := true, flipNegate := false }
      let expanded := if options.nobrace then [pattern] else braceExpand (slashify win32 pattern)
      let options := { options with nobrace := true }
      expanded.foldl (applyPatternAtom glob win32 patternRoot options isIncludePattern list) map

/-- The exported `match(list, patterns, patternRoot?, options?)` (source
lines 220-346).  `glob` abstracts the external minimatch predicate and
`braceExpand` the external `minimatch.braceExpand`; `patterns` is taken as a
list (the source wraps a single string into a one-element array). -/
def matchFn (glob : MatchOptions → String → String → Bool)
    (braceExpand : String → List String) (win32 : Bool)
    (list : List String) (patterns : List String)
    (patternRoot : Option String) (optionsArg : Option MatchOptions) : List String :=
  let options := optionsArg.getD (defaultMatchOptions win32)
  let map := patterns.foldl (processPattern glob braceExpand win32 patternRoot options list) []
  list.filter fun item => map.contains item

/-- Whether one brace-expanded sub-pattern, rooted as in the source, matches
the path `x` when evaluated by `minimatch.match` against the original input
`list`; empty sub-patterns contribute nothing. -/
def specHit (glob : MatchOptions → String → String → Bool) (win32 : Bool)
    (patternRoot : Option String) (options : MatchOptions) (list : List String)
    (x : String) (atom0 : String) : Bool :=
  let atom := jsTrim atom0
  if atom == "" then false
  else (minimatchMatch glob list (rootedPattern win32 patternRoot options atom) options).contains x

/-- Per-path specification of one pattern of the spec pipeline (spec section
4.2, steps 1-7): membership of `x` after a pattern is membership before,
joined (include) with, or cut (exclude) by, whether some sub-pattern of the
pattern matches `x` — the matches being evaluated against the original,
full, unfiltered input `list`, never against the running result. -/
def specKeepStep (glob : MatchOptions → String → String → Bool)
    (braceExpand : String → List String) (win32 : Bool) (patternRoot : Option String)
    (options0 : MatchOptions) (list : List String) (x : String)
    (b : Bool) (pattern0 : String) : Bool :=
  let pattern := jsTrim pattern0
  if pattern == "" then b
  else if !options0.nocomment && startsWithStr pattern "#" then b
  else
    let options := { options0 with nocomment := true }
    let scan := if !options.nonegate then stripLeadingBangs pattern else (0, pattern)
    let isIncludePattern := isIncludeOf options.flipNegate scan.1
    let options := { options with nonegate := true, flipNegate := false }
    let expanded := if options.nobrace then [scan.2] else braceExpand (slashify win32 scan.2)
    let options := { options with nobrace := true }
    if isIncludePattern then b || expanded.any (specHit glob win32 patternRoot options list x)
    else b && !(expanded.any (specHit glob win32 patternRoot options list x))

/-- The include/exclude classification asserted by claim C5: include exactly
on an even count of leading `!`, with the `flipNegate` flag flipping the
whole parity rule (including the zero case). -/
def specClaimInclude (flipNegate : Bool) (negateCount : Nat) : Bool :=
  if flipNegate then negateCount % 2 == 1 else negateCount % 2 == 0

/-- Literal-equality glob used to instantiate the abstract minimatch
parameter in concrete witnesses. -/
def globEq : MatchOptions → String → String → Bool :=
  fun _ pat s => pat == s

/-- Trivial brace expansion (braces disabled), used in concrete witnesses. -/
def braceNone : String → List String :=
  fun p => [p]

/-- A run of `n` exclamation marks followed by `p`. -/
def mkBangs (n : Nat) (p : String) : String :=
  ⟨List.replicate n '!'⟩ ++ p

theorem contains_eq_decide_mem (l : List String) (x : String) :
    l.contains x = decide (x ∈ l) :=
  List.elem_eq_mem x l

theorem mem_insertKey (map : List String) (k x : String) :
    x ∈ insertKey map k ↔ x ∈ map ∨ x = k := by
  unfold insertKey
  split
  · next h =>
    rw [contains_eq_decide_mem] at h
    simp only [decide_eq_true_eq] at h
    constructor
    · exact Or.inl
    · rintro (hx | rfl)
      · exact hx
      · exact h
  · simp [List.mem_append]

theorem mem_removeKey (map : List String) (k x : String) :
    x ∈ removeKey map k ↔ x ∈ map ∧ x ≠ k := by
  unfold removeKey
  simp [List.mem_filter]

theorem mem_foldl_insertKey (results : List String) :
    ∀ (map : List String) (x : String),
      x ∈ results.foldl insertKey map ↔ x ∈ map ∨ x ∈ results := by
  induction results with
  | nil => simp
  | cons r rs ih =>
    intro map x
    simp only [List.foldl_cons]
    rw [ih, mem_insertKey]
    simp only [List.mem_cons]
    tauto

theorem mem_foldl_removeKey (results : List String) :
    ∀ (map : List String) (x : String),
      x ∈ results.foldl removeKey map ↔ x ∈ map ∧ x ∉ results := by
  induction results with
  | nil => simp
  | cons r rs ih =>
    intro map x
    simp only [List.foldl_cons]
    rw [ih, mem_removeKey]
    simp only [List.mem_cons]
    tauto

theorem mem_applyPatternAtom (glob : MatchOptions → String → String → Bool) (win32 : Bool)
    (patternRoot : Option String) (options : MatchOptions) (inc : Bool)
    (list map : List String) (a x : String) :
    x ∈ applyPatternAtom glob win32 patternRoot options inc list map a ↔
      (if inc then x ∈ map ∨ specHit glob win32 patternRoot options list x a = true
       else x ∈ map ∧ ¬ specHit glob win32 patternRoot options list x a = true) := by
  by_cases h : jsTrim a = ""
  · cases inc <;> simp [applyPatternAtom, specHit, h]
  · cases inc <;>
      simp [applyPatternAtom, specHit, h, mem_foldl_insertKey, mem_foldl_removeKey,
        contains_eq_decide_mem]

theorem mem_foldl_applyPatternAtom (glob : MatchOptions → String → String → Bool)
    (win32 : Bool) (patternRoot : Option String) (options : MatchOptions) (inc : Bool)
    (list : List String) (expanded : List String) :
    ∀ (map : List String) (x : String),
      x ∈ expanded.foldl (applyPatternAtom glob win32 patternRoot options inc list) map ↔
        (if inc then
            x ∈ map ∨ expanded.any (specHit glob win32 patternRoot options list x) = true
         else
            x ∈ map ∧ ¬ expanded.any (specHit glob win32 patternRoot options list x) = true) := by
  induction expanded with
  | nil => cases inc <;> simp
  | cons a as ih =>
    intro map x
    simp only [List.foldl_cons]
    rw [ih]
    cases inc <;> simp [mem_applyPatternAtom] <;> tauto

theorem keepFold_iff (glob : MatchOptions → String → String → Bool) (win32 : Bool)
    (patternRoot : Option String) (options : MatchOptions) (inc : Bool)
    (list : List String) (expanded : List String) (map : List String) (x : String) (b : Bool)
    (hb : x ∈ map ↔ b = true) :
    x ∈ expanded.foldl (applyPatternAtom glob win32 patternRoot options inc list) map ↔
      (if inc then b || expanded.any (specHit glob win32 patternRoot options list x)
       else b && !(expanded.any (specHit glob win32 patternRoot options list x))) = true := by
  rw [mem_foldl_applyPatternAtom]
  cases inc <;> simp [hb]

theorem processPattern_keep (glob : MatchOptions → String → String → Bool)
    (braceExpand : String → List String) (win32 : Bool) (patternRoot : Option String)
    (options0 : MatchOptions) (list map : List String) (pattern0 x : String) (b : Bool)
    (hb : x ∈ map ↔ b = true) :
    x ∈ processPattern glob braceExpand win32 patternRoot options0 list map pattern0 ↔
      specKeepStep glob braceExpand win32 patternRoot options0 list x b pattern0 = true := by
  by_cases h : jsTrim pattern0 = ""
  · simp [processPattern, specKeepStep, h, hb]
  · by_cases hc : (!options0.nocomment && startsWithStr (jsTrim pattern0) "#") = true
    · simp [processPattern, specKeepStep, h, hc, hb]
    · simp only [processPattern, specKeepStep, beq_iff_eq, h, if_false, hc]
      exact keepFold_iff glob win32 patternRoot _ _ list _ map x b hb

theorem foldl_processPattern_keep (glob : MatchOptions → String → String → Bool)
    (braceExpand : String → List String) (win32 : Bool) (patternRoot : Option String)
    (options0 : MatchOptions) (list : List String) (patterns : List String) :
    ∀ (map : List String) (x : String) (b : Bool), (x ∈ map ↔ b = true) →
      (x ∈ patterns.foldl (processPattern glob braceExpand win32 patternRoot options0 list) map ↔
        patterns.foldl (specKeepStep glob braceExpand win32 patternRoot options0 list x) b = true) := by
  induction patterns with
  | nil => intro map x b hb; simpa using hb
  | cons p ps ih =>
    intro map x b hb
    simp only [List.foldl_cons]
    exact ih _ x _ (processPattern_keep glob braceExpand win32 patternRoot options0 list map p x b hb)

theorem matchFn_characterization (glob : MatchOptions → String → String → Bool)
    (braceExpand : String → List String) (win32 : Bool) (list patterns : List String)
    (patternRoot : Option String) (optsArg : Option MatchOptions) :
    matchFn glob braceExpand win32 list patterns patternRoot optsArg =
      list.filter fun x =>
        patterns.foldl
          (specKeepStep glob braceExpand win32 patternRoot
            (optsArg.getD (defaultMatchOptions win32)) list x) false := by
  unfold matchFn
  apply List.filter_congr
  intro x _
  apply Bool.coe_iff_coe.mp
  rw [contains_eq_decide_mem]
  simp only [decide_eq_true_eq]
  exact foldl_processPattern_keep glob braceExpand win32 patternRoot _ list patterns [] x false
    (by simp)

/-- C1: every pattern of `match`, include or exclude, is evaluated against
the original, full, unfiltered input list, never against the running result:
the final output keeps exactly the input paths whose membership survives the
per-pattern union (include) / subtraction (exclude) fold, in which each
pattern's matches are computed by applying it to the original `list` — so an
exclude pattern also removes paths added by earlier include patterns. -/
theorem match_evaluates_against_original_list
    (glob : MatchOptions → String → String → Bool)
    (braceExpand : String → List String) (win32 : Bool) (list patterns : List String)
    (patternRoot : Option String) (optsArg : Option MatchOptions) :
    matchFn glob braceExpand win32 list patterns patternRoot optsArg =
      list.filter fun x =>
        patterns.foldl
          (specKeepStep glob braceExpand win32 patternRoot
            (optsArg.getD (defaultMatchOptions win32)) list x) false :=
  matchFn_characterization glob braceExpand win32 list patterns patternRoot optsArg

/-- C2: the output of `match` is a subsequence of its input list: only
strings occurring in the list, in the original relative order, and no
element is kept more often than it occurs in the input no matter how many
patterns matched it (in particular, a duplicate-free input yields a
duplicate-free output). -/
theorem match_output_subsequence (glob : MatchOptions → String → String → Bool)
    (braceExpand : String → List String) (win32 : Bool) (list patterns : List String)
    (patternRoot : Option String) (optsArg : Option MatchOptions) :
    List.Sublist (matchFn glob braceExpand win32 list patterns patternRoot optsArg) list ∧
    (∀ x, (matchFn glob braceExpand win32 list patterns patternRoot optsArg).count x ≤
        list.count x) ∧
    (list.Nodup → (matchFn glob braceExpand win32 list patterns patternRoot optsArg).Nodup) := by
  have hs : List.Sublist (matchFn glob braceExpand win32 list patterns patternRoot optsArg) list := by
    unfold matchFn
    exact List.filter_sublist list
  exact ⟨hs, fun x => hs.count_le x, fun h => h.sublist hs⟩

theorem match_output_subsequence_witness :
    (["a", "b"] : List String).Nodup ∧
    (matchFn globEq braceNone false ["a", "b"] ["a"] none none).Nodup :=
  ⟨by decide,
    (match_output_subsequence globEq braceNone false ["a", "b"] ["a"] none none).2.2 (by decide)⟩

theorem specHit_list_congr (glob : MatchOptions → String → String → Bool) (win32 : Bool)
    (patternRoot : Option String) (opts : MatchOptions) (l1 l2 : List String) (x : String)
    (ho : opts.nonull = false) (hx : x ∈ l1 ↔ x ∈ l2) (atom : String) :
    specHit glob win32 patternRoot opts l1 x atom = specHit glob win32 patternRoot opts l2 x atom := by
  by_cases h : jsTrim atom = ""
  · simp [specHit, h]
  · simp only [specHit, minimatchMatch, beq_iff_eq, h, if_false, ho, Bool.false_and]
    apply Bool.coe_iff_coe.mp
    simp [contains_eq_decide_mem, List.mem_filter, hx]

theorem specKeepStep_list_congr (glob : MatchOptions → String → String → Bool)
    (braceExpand : String → List String) (win32 : Bool) (patternRoot : Option String)
    (options0 : MatchOptions) (l1 l2 : List String) (x : String)
    (hnn : options0.nonull = false) (hx : x ∈ l1 ↔ x ∈ l2) (b : Bool) (p : String) :
    specKeepStep glob braceExpand win32 patternRoot options0 l1 x b p =
      specKeepStep glob braceExpand win32 patternRoot options0 l2 x b p := by
  have hhit : ∀ (opts : MatchOptions), opts.nonull = false → ∀ atom,
      specHit glob win32 patternRoot opts l1 x atom = specHit glob win32 patternRoot opts l2 x atom :=
    fun opts ho atom => specHit_list_congr glob win32 patternRoot opts l1 l2 x ho hx atom
  by_cases h : jsTrim p = ""
  · simp [specKeepStep, h]
  · by_cases hc : (!options0.nocomment && startsWithStr (jsTrim p) "#") = true
    · simp [specKeepStep, h, hc]
    · have hh : specHit glob win32 patternRoot
          { options0 with nocomment := true, nonegate := true, flipNegate := false, nobrace := true }
          l1 x =
          specHit glob win32 patternRoot
          { options0 with nocomment := true, nonegate := true, flipNegate := false, nobrace := true }
          l2 x :=
        funext (hhit _ hnn)
      simp only [specKeepStep, beq_iff_eq, h, if_false, hc, hh]

theorem keepFold_list_congr (glob : MatchOptions → String → String → Bool)
    (braceExpand : String → List String) (win32 : Bool) (patternRoot : Option String)
    (options0 : MatchOptions) (l1 l2 : List String) (x : String)
    (hnn : options0.nonull = false) (hx : x ∈ l1 ↔ x ∈ l2) (patterns : List String) :
    ∀ b : Bool,
      patterns.foldl (specKeepStep glob braceExpand win32 patternRoot options0 l1 x) b =
        patterns.foldl (specKeepStep glob braceExpand win32 patternRoot options0 l2 x) b := by
  induction patterns with
  | nil => intro b; rfl
  | cons p ps ih =>
    intro b
    simp only [List.foldl_cons]
    rw [specKeepStep_list_congr glob braceExpand win32 patternRoot options0 l1 l2 x hnn hx b p]
    exact ih _

/-- C9: filtering is idempotent — running `match` (with default options, as
in a plain `match(L, P)` call) on its own output changes nothing, because
every pattern evaluates each candidate path independently of the other
elements of the list. -/
theorem match_filter_idempotent (glob : MatchOptions → String → String → Bool)
    (braceExpand : String → List String) (win32 : Bool) (list patterns : List String) :
    matchFn glob braceExpand win32 (matchFn glob braceExpand win32 list patterns none none)
        patterns none none =
      matchFn glob braceExpand win32 list patterns none none := by
  simp only [matchFn_characterization, Option.getD_none]
  rw [List.filter_congr (fun x hx => keepFold_list_congr glob braceExpand win32 none
    (defaultMatchOptions win32)
    (list.filter fun x => patterns.foldl
      (specKeepStep glob braceExpand win32 none (defaultMatchOptions win32) list x) false)
    list x rfl ⟨fun _ => List.mem_of_mem_filter hx, fun _ => hx⟩ patterns false)]
  rw [List.filter_filter]
  exact List.filter_congr fun a _ => Bool.and_self _

/-- C8: rooting semantics.  With a nonempty `patternRoot` supplied and a
nonempty sub-pattern: an already-rooted sub-pattern is left unchanged
(`patternRoot` is ignored for it); otherwise, when `matchBase` is off or the
sub-pattern contains a separator, the effective pattern is
`ensureRooted root pattern`, which concatenates with no separator at all
after a bare drive-letter root, with no inserted separator when the root
already ends in one, and with exactly one inserted separator otherwise; in
particular root `/a/b` with pattern `*.txt` gives `/a/b/*.txt`. -/
theorem pattern_rooting_spec (win32 : Bool) (root p : String) (opts : MatchOptions)
    (hroot : root ≠ "") (hp : p ≠ "") :
    (isRooted win32 p = true → rootedPattern win32 (some root) opts p = p) ∧
    (isRooted win32 p = false →
      (opts.matchBase = false ∨ containsChar (slashify win32 p) '/' = true) →
      rootedPattern win32 (some root) opts p = ensureRooted win32 root p) ∧
    (isRooted win32 p = false → win32 = true → isBareDrive root = true →
      ensureRooted win32 root p = root ++ p) ∧
    (isRooted win32 p = false → ¬(win32 = true ∧ isBareDrive root = true) →
      (endsWithStr root "/" || (win32 && endsWithStr root "\\")) = true →
      ensureRooted win32 root p = root ++ p) ∧
    (isRooted win32 p = false → ¬(win32 = true ∧ isBareDrive root = true) →
      (endsWithStr root "/" || (win32 && endsWithStr root "\\")) = false →
      ensureRooted win32 root p = root ++ (if win32 then "\\" else "/") ++ p) ∧
    ensureRooted false "/a/b" "*.txt" = "/a/b/*.txt" := by
  refine ⟨?_, ?_, ?_, ?_, ?_, by decide⟩
  · intro hr
    simp [rootedPattern, hr]
  · intro hr hmb
    have hcond : (!(root == "") && !(isRooted win32 p) &&
        (!opts.matchBase || containsChar (slashify win32 p) '/')) = true := by
      rcases hmb with hmb | hmb <;> simp [hroot, hr, hmb]
    simp [rootedPattern, hcond]
  · intro hr hw hb
    subst hw
    simp [ensureRooted, hr, hb]
  · intro hr hnb hsep
    have hnb2 : (win32 && isBareDrive root) = false := by
      rcases hw : win32 with _ | _
      · simp
      · rcases hb : isBareDrive root with _ | _
        · simp
        · exact absurd ⟨hw, hb⟩ hnb
    simp [ensureRooted, hr, hnb2, hsep]
  · intro hr hnb hsep
    have hnb2 : (win32 && isBareDrive root) = false := by
      rcases hw : win32 with _ | _
      · simp
      · rcases hb : isBareDrive root with _ | _
        · simp
        · exact absurd ⟨hw, hb⟩ hnb
    simp [ensureRooted, hr, hnb2, hsep]

theorem pattern_rooting_spec_witness :
    rootedPattern false (some "/a/b") (defaultMatchOptions false) "*.txt" = "/a/b/*.txt" := by
  have h := pattern_rooting_spec false "/a/b" "*.txt" (defaultMatchOptions false)
    (by decide) (by decide)
  rw [h.2.1 (by decide) (Or.inl rfl)]
  exact h.2.2.2.2.2

theorem dropWhile_eq_self_of_length (f : Char → Bool) (l : List Char)
    (h : (l.dropWhile f).length = l.length) : l.dropWhile f = l := by
  have hsplit := List.takeWhile_append_dropWhile (p := f) (l := l)
  have hlen := congrArg List.length hsplit
  rw [List.length_append] at hlen
  have htake : (l.takeWhile f).length = 0 := by omega
  rw [List.length_eq_zero] at htake
  conv_rhs => rw [← hsplit]
  rw [htake, List.nil_append]

theorem lengthDropWhileLe (f : Char → Bool) (l : List Char) :
    (l.dropWhile f).length ≤ l.length := by
  induction l with
  | nil => simp
  | cons a l ih =>
    rw [List.dropWhile_cons]
    split
    · exact le_trans ih (by simp)
    · simp

theorem jsTrim_fixed (p : String) (h : jsTrim p = p) :
    p.data.dropWhile isJsSpace = p.data ∧
      p.data.reverse.dropWhile isJsSpace = p.data.reverse := by
  have hdata : (((p.data.dropWhile isJsSpace).reverse.dropWhile isJsSpace).reverse) = p.data :=
    congrArg String.data h
  have hlen := congrArg List.length hdata
  simp only [List.length_reverse] at hlen
  have l1 : (p.data.dropWhile isJsSpace).length ≤ p.data.length :=
    lengthDropWhileLe isJsSpace p.data
  have l2 : ((p.data.dropWhile isJsSpace).reverse.dropWhile isJsSpace).length ≤
      (p.data.dropWhile isJsSpace).length := by
    have := lengthDropWhileLe isJsSpace (p.data.dropWhile isJsSpace).reverse
    simpa using this
  have hA : p.data.dropWhile isJsSpace = p.data :=
    dropWhile_eq_self_of_length isJsSpace p.data (by omega)
  refine ⟨hA, ?_⟩
  rw [hA] at hdata
  have := congrArg List.reverse hdata
  simpa using this

theorem mkBangs_zero (p : String) : mkBangs 0 p = p := by
  apply String.ext
  simp [mkBangs, String.data_append]

theorem mkBangs_data (n : Nat) (p : String) :
    (mkBangs n p).data = List.replicate n '!' ++ p.data := by
  simp [mkBangs, String.data_append]

theorem string_ne_empty_iff (p : String) : p ≠ "" ↔ p.data ≠ [] := by
  constructor
  · intro h hd
    exact h (String.ext hd)
  · intro h hd
    exact h (congrArg String.data hd)

theorem jsTrim_bangs (p : String) (k : Nat) (htrim : jsTrim p = p) (hp : p ≠ "") :
    jsTrim (mkBangs (k + 1) p) = mkBangs (k + 1) p := by
  obtain ⟨hA, hB⟩ := jsTrim_fixed p htrim
  apply String.ext
  show ((((mkBangs (k + 1) p).data.dropWhile isJsSpace).reverse.dropWhile isJsSpace).reverse) =
    (mkBangs (k + 1) p).data
  rw [mkBangs_data]
  have hlead : (List.replicate (k + 1) '!' ++ p.data).dropWhile isJsSpace =
      List.replicate (k + 1) '!' ++ p.data := by
    rw [List.replicate_succ, List.cons_append]
    rw [List.dropWhile_cons_of_neg (by decide)]
  rw [hlead, List.reverse_append]
  have hpd : p.data ≠ [] := (string_ne_empty_iff p).mp hp
  obtain ⟨a, as, hrev⟩ : ∃ a as, p.data.reverse = a :: as := by
    cases hr : p.data.reverse with
    | nil =>
      exfalso
      apply hpd
      have := congrArg List.reverse hr
      simpa using this
    | cons a as => exact ⟨a, as, rfl⟩
  have hna : isJsSpace a = false := by
    by_cases hsa : isJsSpace a = true
    · exfalso
      have hthis := hB
      rw [hrev, List.dropWhile_cons_of_pos hsa] at hthis
      have hl := congrArg List.length hthis
      have hle := lengthDropWhileLe isJsSpace as
      simp at hl
      omega
    · simpa using hsa
  rw [hrev, List.cons_append, List.dropWhile_cons_of_neg (by simp [hna])]
  rw [← List.cons_append, ← hrev, ← List.reverse_append]
  simp

theorem mkBangs_succ_ne_empty (k : Nat) (p : String) : mkBangs (k + 1) p ≠ "" := by
  rw [string_ne_empty_iff, mkBangs_data, List.replicate_succ]
  simp

theorem mkBangs_succ_not_comment (k : Nat) (p : String) :
    startsWithStr (mkBangs (k + 1) p) "#" = false := by
  unfold startsWithStr
  rw [mkBangs_data, List.replicate_succ]
  simp [List.isPrefixOf]

theorem takeWhile_bang_replicate (n : Nat) (l : List Char) :
    (List.replicate n '!' ++ l).takeWhile (fun c => c == '!') =
      List.replicate n '!' ++ l.takeWhile (fun c => c == '!') := by
  induction n with
  | zero => simp
  | succ m ih =>
    rw [List.replicate_succ, List.cons_append, List.takeWhile_cons_of_pos (by decide), ih]
    simp

theorem takeWhile_bang_nil (p : String) (hbang : startsWithStr p "!" = false) :
    p.data.takeWhile (fun c => c == '!') = [] := by
  unfold startsWithStr at hbang
  cases hd : p.data with
  | nil => simp
  | cons a l =>
    rw [hd] at hbang
    simp [List.isPrefixOf] at hbang
    rw [List.takeWhile_cons_of_neg]
    simp
    intro hae
    exact hbang hae.symm

theorem stripLeadingBangs_mkBangs (n : Nat) (p : String)
    (hbang : startsWithStr p "!" = false) :
    stripLeadingBangs (mkBangs n p) = (n, p) := by
  simp only [stripLeadingBangs, mkBangs_data, takeWhile_bang_replicate,
    takeWhile_bang_nil p hbang, List.append_nil, List.length_replicate]
  have hdrop : (List.replicate n '!' ++ p.data).drop n = p.data :=
    List.drop_left' (List.length_replicate n _)
  rw [hdrop]

theorem stripLeadingBangs_self (p : String) (hbang : startsWithStr p "!" = false) :
    stripLeadingBangs p = (0, p) := by
  simp only [stripLeadingBangs, takeWhile_bang_nil p hbang, List.length_nil, List.drop_zero]

theorem isIncludeOf_iff (f : Bool) (n : Nat) :
    isIncludeOf f n = true ↔
      (n = 0 ∨ (n % 2 = 0 ∧ f = false) ∨ (n % 2 = 1 ∧ f = true)) := by
  cases f <;> simp [isIncludeOf]

theorem foldl_removeKey_nil (results : List String) :
    results.foldl removeKey [] = [] := by
  induction results with
  | nil => rfl
  | cons r rs ih => simpa [removeKey] using ih

theorem foldl_applyAtom_exclude_nil (glob : MatchOptions → String → String → Bool)
    (win32 : Bool) (patternRoot : Option String) (options : MatchOptions)
    (list : List String) (expanded : List String) :
    expanded.foldl (applyPatternAtom glob win32 patternRoot options false list) [] = [] := by
  induction expanded with
  | nil => rfl
  | cons a as ih =>
    have hstep : applyPatternAtom glob win32 patternRoot options false list [] a = [] := by
      by_cases h : jsTrim a = ""
      · simp [applyPatternAtom, h]
      · simp [applyPatternAtom, h, foldl_removeKey_nil]
    simpa [hstep] using ih

/-- C5 (amended): with negation enabled, a pattern made of `n` leading `!`
followed by a bang-free pattern `p` is an include pattern behaving exactly
like `p` when `n` is zero, or when `n` is even and `invertNegation` is off,
or when `n` is odd and `invertNegation` is on; in every other case it is an
exclude pattern (and an exclude-only pattern list keeps nothing).  Setting
`invertNegation` therefore flips the parity rule only for patterns with at
least one leading `!`: a pattern with no leading `!` stays an include
pattern.  In particular `!!foo` is an include pattern equivalent to `foo`
and `!foo` is an exclude pattern. -/
theorem negation_parity_amended (glob : MatchOptions → String → String → Bool)
    (braceExpand : String → List String) (win32 : Bool) (L : List String)
    (root : Option String) (opts : MatchOptions) (p : String) (n : Nat)
    (hneg : opts.nonegate = false) (htrim : jsTrim p = p) (hp : p ≠ "")
    (hbang : startsWithStr p "!" = false) (hcomment : startsWithStr p "#" = false) :
    matchFn glob braceExpand win32 L [mkBangs n p] root (some opts) =
      if n = 0 ∨ (n % 2 = 0 ∧ opts.flipNegate = false) ∨ (n % 2 = 1 ∧ opts.flipNegate = true)
      then matchFn glob braceExpand win32 L [p] root (some opts)
      else [] := by
  cases n with
  | zero =>
    rw [mkBangs_zero, if_pos (Or.inl rfl)]
  | succ k =>
    have htrimB := jsTrim_bangs p k htrim hp
    have hneB := mkBangs_succ_ne_empty k p
    have hcomB := mkBangs_succ_not_comment k p
    have hstrip := stripLeadingBangs_mkBangs (k + 1) p hbang
    have hstrip0 := stripLeadingBangs_self p hbang
    by_cases hinc : isIncludeOf opts.flipNegate (k + 1) = true
    · rw [if_pos (by simpa using (isIncludeOf_iff opts.flipNegate (k + 1)).mp hinc)]
      simp only [matchFn, Option.getD_some, List.foldl_cons, List.foldl_nil]
      have hmaps :
          processPattern glob braceExpand win32 root opts L [] (mkBangs (k + 1) p) =
            processPattern glob braceExpand win32 root opts L [] p := by
        have hzero : ∀ f : Bool, isIncludeOf f 0 = true := by intro f; simp [isIncludeOf]
        simp only [processPattern, htrimB, htrim, beq_iff_eq, hneB, hp, if_false,
          hcomB, hcomment, Bool.and_false, hneg, Bool.not_false, if_true, hstrip, hstrip0]
        simp only [hinc, hzero]
      rw [hmaps]
    · have hexc : isIncludeOf opts.flipNegate (k + 1) = false := by
        simpa using hinc
      rw [if_neg (by
        intro hcond
        exact hinc ((isIncludeOf_iff opts.flipNegate (k + 1)).mpr (by simpa using hcond)))]
      simp only [matchFn, Option.getD_some, List.foldl_cons, List.foldl_nil]
      have hmap :
          processPattern glob braceExpand win32 root opts L [] (mkBangs (k + 1) p) = [] := by
        simp only [processPattern, htrimB, beq_iff_eq, hneB, if_false,
          hcomB, Bool.and_false, hneg, Bool.not_false, if_true, hstrip, hexc]
        simp [foldl_applyAtom_exclude_nil]
      rw [hmap]
      simp

theorem negation_parity_amended_witness :
    matchFn globEq braceNone false ["foo"] [mkBangs 2 "foo"] none
        (some (defaultMatchOptions false)) =
      if 2 = 0 ∨ (2 % 2 = 0 ∧ (defaultMatchOptions false).flipNegate = false) ∨
          (2 % 2 = 1 ∧ (defaultMatchOptions false).flipNegate = true)
      then matchFn globEq braceNone false ["foo"] ["foo"] none
        (some (defaultMatchOptions false))
      else [] :=
  negation_parity_amended globEq braceNone false ["foo"] none (defaultMatchOptions false)
    "foo" 2 rfl rfl (by decide) rfl rfl

/-- C5 counterexample to the claim as stated: with `invertNegation` set, a
pattern with zero leading `!` (here `foo`) is still treated as an include
pattern — `match(["foo"], ["foo"])` under `flipNegate` returns `["foo"]` —
whereas the flipped parity rule claimed for `invertNegation`
(`specClaimInclude`) classifies a zero-`!` pattern as exclude, and an
exclude-only pattern list keeps nothing, as the third conjunct shows on the
genuinely-exclude pattern `!foo`. -/
theorem negation_parity_claim_cex :
    matchFn globEq braceNone false ["foo"] ["foo"] none
        (some { defaultMatchOptions false with flipNegate := true }) = ["foo"] ∧
    specClaimInclude true 0 = false ∧
    matchFn globEq braceNone false ["foo"] ["!foo"] none
        (some (defaultMatchOptions false)) = [] := by
  refine ⟨by decide, by decide, by decide⟩

theorem size_pos (n : FSNode) : 1 ≤ n.size := by
  cases n <;> simp [FSNode.size]

theorem stackWeight_append (a b : List FindItem) :
    stackWeight (a ++ b) = stackWeight a + stackWeight b := by
  induction a with
  | nil => simp [stackWeight]
  | cons x xs ih => simp [stackWeight, ih]; omega

theorem stackWeight_childItems (p : String) (lvl : Nat) (cs : List (String × FSNode)) :
    stackWeight (cs.map fun c => FindItem.mk (joinP p c.1) lvl c.2) = childrenSize cs := by
  induction cs with
  | nil => simp [stackWeight, childrenSize]
  | cons c rest ih =>
    obtain ⟨name, node⟩ := c
    simp [stackWeight, childrenSize, ih]

theorem childrenErrorFree_iff (cs : List (String × FSNode)) :
    childrenErrorFree cs = true ↔ ∀ c ∈ cs, c.2.errorFree = true := by
  induction cs with
  | nil => simp [childrenErrorFree]
  | cons c rest ih =>
    obtain ⟨name, node⟩ := c
    simp [childrenErrorFree, ih]

theorem preorderChildren_eq_flatten (p : String) (cs : List (String × FSNode)) :
    preorderChildren p cs = (cs.map fun c => preorder (joinP p c.1) c.2).flatten := by
  induction cs with
  | nil => simp [preorderChildren]
  | cons c rest ih =>
    obtain ⟨name, node⟩ := c
    simp [preorderChildren, ih]

theorem findLoop_ok :
    ∀ (stack : List FindItem) (result : List String),
      (∀ it ∈ stack, it.node.errorFree = true) →
      findLoop stack result =
        .ok (result ++ (stack.map fun it => preorder it.path it.node).flatten) := by
  suffices H : ∀ (W : Nat) (stack : List FindItem), stackWeight stack ≤ W →
      ∀ result : List String, (∀ it ∈ stack, it.node.errorFree = true) →
      findLoop stack result =
        .ok (result ++ (stack.map fun it => preorder it.path it.node).flatten) by
    intro stack result h
    exact H (stackWeight stack) stack le_rfl result h
  intro W
  induction W with
  | zero =>
    intro stack hw result herr
    cases stack with
    | nil => simp [findLoop]
    | cons it rest =>
      exfalso
      have := size_pos it.node
      simp [stackWeight] at hw
      omega
  | succ W ih =>
    intro stack hw result herr
    cases stack with
    | nil => simp [findLoop]
    | cons it rest =>
      obtain ⟨p, lvl, node⟩ := it
      have hhead : node.errorFree = true := herr ⟨p, lvl, node⟩ (by simp)
      have hrest : ∀ it ∈ rest, it.node.errorFree = true :=
        fun it hit => herr it (List.mem_cons_of_mem _ hit)
      have hwrest : stackWeight rest ≤ W := by
        have := size_pos node
        simp [stackWeight] at hw
        omega
      cases node with
      | statErr code => simp [FSNode.errorFree] at hhead
      | readErr code => simp [FSNode.errorFree] at hhead
      | file =>
        simp only [findLoop]
        rw [ih rest hwrest (result ++ [p]) hrest]
        simp [preorder]
      | symlink t =>
        simp only [findLoop]
        rw [ih rest hwrest (result ++ [p]) hrest]
        simp [preorder]
      | dir cs =>
        have hcs : ∀ c ∈ cs, c.2.errorFree = true := by
          rw [FSNode.errorFree] at hhead
          exact (childrenErrorFree_iff cs).mp hhead
        simp only [findLoop, pushInReverse]
        have hwnew :
            stackWeight ((cs.map fun c => FindItem.mk (joinP p c.1) (lvl + 1) c.2) ++ rest) ≤ W := by
          rw [stackWeight_append, stackWeight_childItems]
          simp [stackWeight, FSNode.size] at hw
          omega
        have herrnew : ∀ it ∈ (cs.map fun c => FindItem.mk (joinP p c.1) (lvl + 1) c.2) ++ rest,
            it.node.errorFree = true := by
          intro it hit
          rcases List.mem_append.mp hit with hm | hm
          · obtain ⟨c, hc, rfl⟩ := List.mem_map.mp hm
            exact hcs c hc
          · exact hrest it hm
        rw [ih _ hwnew (result ++ [p]) herrnew]
        simp only [preorder, List.map_append, List.map_map, List.flatten_append,
          List.map_cons, List.flatten_cons]
        rw [preorderChildren_eq_flatten]
        simp only [List.append_assoc]
        have hfun : ((fun it : FindItem => preorder it.path it.node) ∘
            fun c : String × FSNode => FindItem.mk (joinP p c.1) (lvl + 1) c.2) =
            fun c : String × FSNode => preorder (joinP p c.1) c.2 := funext fun c => rfl
        rw [hfun]
        simp [List.append_assoc]

theorem find_ok (fs : FSNode) (root : String) (herr : fs.errorFree = true) (hroot : root ≠ "") :
    find fs root = .ok (preorder (normalizePath root) fs) := by
  have hloop := findLoop_ok [FindItem.mk (normalizePath root) 1 fs] []
    (by intro it hit; simp at hit; subst hit; exact herr)
  simp at hloop
  cases fs with
  | statErr code => simp [FSNode.errorFree] at herr
  | file => simpa [find, hroot] using hloop
  | symlink t => simpa [find, hroot] using hloop
  | readErr code => simp [FSNode.errorFree] at herr
  | dir cs => simpa [find, hroot] using hloop

/-- C10: calling `find` with an empty (falsy) path string returns an empty
sequence without raising an error and without consulting the filesystem —
the snapshot is arbitrary and may even be one whose very first `lstat`
would raise. -/
theorem find_empty_path (fs : FSNode) : find fs "" = .ok [] := by
  simp [find]

/-- C4: when the path does not exist at traversal start — the initial
`lstat` fails with the not-found code `ENOENT` — `find` returns an empty
sequence and raises no error. -/
theorem find_nonexistent_root (root : String) :
    find (.statErr "ENOENT") root = .ok [] := by
  by_cases h : root = ""
  · simp [find, h]
  · simp [find, h]

theorem reach_extend {rp : String} {rn : FSNode} {p : String} {cs : List (String × FSNode)}
    {name : String} {m : FSNode} (h : Reach rp rn p (.dir cs)) (hm : (name, m) ∈ cs) :
    Reach rp rn (joinP p name) m := by
  generalize hk : FSNode.dir cs = k at h
  induction h with
  | here q n =>
    subst hk
    exact Reach.step hm (Reach.here _ _)
  | step hmem hrec ih =>
    exact Reach.step hmem (ih hk)

theorem sizeChild_le (cs : List (String × FSNode)) (c : String × FSNode) (hc : c ∈ cs) :
    c.2.size ≤ childrenSize cs := by
  induction cs with
  | nil => cases hc
  | cons d rest ih =>
    obtain ⟨name, node⟩ := d
    rcases List.mem_cons.mp hc with rfl | hm
    · simp [childrenSize]
    · have := ih hm
      simp [childrenSize]
      omega

theorem mem_preorderChildren (p q : String) (cs : List (String × FSNode)) :
    q ∈ preorderChildren p cs ↔ ∃ c ∈ cs, q ∈ preorder (joinP p c.1) c.2 := by
  rw [preorderChildren_eq_flatten]
  simp only [List.mem_flatten, List.mem_map]
  constructor
  · rintro ⟨l, ⟨c, hc, rfl⟩, hq⟩
    exact ⟨c, hc, hq⟩
  · rintro ⟨c, hc, hq⟩
    exact ⟨preorder (joinP p c.1) c.2, ⟨c, hc, rfl⟩, hq⟩

theorem mem_preorder_reach :
    ∀ (n : FSNode) (p q : String), q ∈ preorder p n → ∃ m, Reach p n q m := by
  suffices H : ∀ (W : Nat) (n : FSNode), n.size ≤ W →
      ∀ p q : String, q ∈ preorder p n → ∃ m, Reach p n q m by
    intro n p q h
    exact H n.size n le_rfl p q h
  intro W
  induction W with
  | zero =>
    intro n hw
    have := size_pos n
    omega
  | succ W ih =>
    intro n hw p q hq
    cases n with
    | dir cs =>
      rw [show preorder p (.dir cs) = p :: preorderChildren p cs from by simp [preorder]] at hq
      rcases List.mem_cons.mp hq with rfl | hq2
      · exact ⟨_, Reach.here _ _⟩
      · obtain ⟨c, hc, hqc⟩ := (mem_preorderChildren p q cs).mp hq2
        have hsz : c.2.size ≤ W := by
          have h1 := sizeChild_le cs c hc
          simp [FSNode.size] at hw
          omega
        obtain ⟨m, hm⟩ := ih c.2 hsz (joinP p c.1) q hqc
        exact ⟨m, Reach.step (by rcases c with ⟨n1, n2⟩; exact hc) hm⟩
    | file =>
      simp [preorder] at hq
      subst hq
      exact ⟨_, Reach.here _ _⟩
    | symlink t =>
      simp [preorder] at hq
      subst hq
      exact ⟨_, Reach.here _ _⟩
    | statErr code =>
      simp [preorder] at hq
      subst hq
      exact ⟨_, Reach.here _ _⟩
    | readErr code =>
      simp [preorder] at hq
      subst hq
      exact ⟨_, Reach.here _ _⟩

theorem reach_mem_preorder {rp : String} {rn : FSNode} {q : String} {m : FSNode}
    (h : Reach rp rn q m) : q ∈ preorder rp rn := by
  induction h with
  | here p n => cases n <;> simp [preorder]
  | step hmem hrec ih =>
    simp only [preorder, List.mem_cons]
    right
    exact (mem_preorderChildren _ _ _).mpr ⟨_, hmem, ih⟩

theorem strCancelLeft (a b c : String) (h : a ++ b = a ++ c) : b = c := by
  apply String.ext
  have hd := congrArg String.data h
  rw [String.data_append, String.data_append] at hd
  exact List.append_cancel_left hd

theorem sPre_comparable {a1 a2 b : String} (h1 : sPre a1 b) (h2 : sPre a2 b) :
    sPre a1 a2 ∨ sPre a2 a1 := by
  obtain ⟨s1, hs1⟩ := h1
  obtain ⟨s2, hs2⟩ := h2
  have hd : a1.data ++ s1.data = a2.data ++ s2.data := by
    have := congrArg String.data (hs1.symm.trans hs2)
    simpa [String.data_append] using this
  rcases List.append_eq_append_iff.mp hd with ⟨a3, ha3, _⟩ | ⟨c3, hc3, _⟩
  · exact Or.inl ⟨⟨a3⟩, String.ext (by rw [String.data_append]; exact ha3)⟩
  · exact Or.inr ⟨⟨c3⟩, String.ext (by rw [String.data_append]; exact hc3)⟩

theorem sPre_length {a b : String} (h : sPre a b) : a.data.length ≤ b.data.length := by
  obtain ⟨s, rfl⟩ := h
  rw [String.data_append]
  simp

theorem simpleName_data (s : String) (h : simpleName s = true) :
    s.data ≠ [] ∧ '/' ∉ s.data := by
  unfold simpleName at h
  simp at h
  exact ⟨fun hd => h.1 (String.ext hd), h.2⟩

theorem endsWith_slash_iff (s : String) :
    endsWithStr s "/" = true ↔ s.data.getLast? = some '/' := by
  unfold endsWithStr
  rw [show ("/" : String).data = ['/'] from rfl, List.isSuffixOf_iff_suffix]
  constructor
  · rintro ⟨t, ht⟩
    rw [← ht]
    exact List.getLast?_concat t
  · intro hl
    rw [List.getLast?_eq_head?_reverse] at hl
    cases hr : s.data.reverse with
    | nil => rw [hr] at hl; simp at hl
    | cons a l =>
      rw [hr] at hl
      simp at hl
      refine ⟨l.reverse, ?_⟩
      have hrev := congrArg List.reverse hr
      simp at hrev
      rw [hrev, hl]

theorem pSlash_exists (p : String) : ∃ r, pSlash p = p ++ r := by
  unfold pSlash
  split
  · exact ⟨"", (String.append_empty p).symm⟩
  · exact ⟨"/", rfl⟩

theorem pSlash_length (p : String) : p.data.length ≤ (pSlash p).data.length := by
  obtain ⟨r, hr⟩ := pSlash_exists p
  rw [hr, String.data_append]
  simp

theorem joinP_length_gt (p name : String) (hname : name.data ≠ []) :
    p.data.length < (joinP p name).data.length := by
  unfold joinP
  rw [String.data_append]
  have h1 := pSlash_length p
  have h2 : 0 < name.data.length := List.length_pos.mpr hname
  simp only [List.length_append]
  omega

theorem joinP_getLast? (p name : String) (hname : name.data ≠ []) :
    (joinP p name).data.getLast? = name.data.getLast? := by
  unfold joinP
  rw [String.data_append]
  exact List.getLast?_append_of_ne_nil _ hname

theorem joinP_not_endSlash (p name : String) (hs : simpleName name = true) :
    endsWithStr (joinP p name) "/" = false := by
  obtain ⟨hnd, hns⟩ := simpleName_data name hs
  by_cases h : endsWithStr (joinP p name) "/" = true
  · exfalso
    rw [endsWith_slash_iff, joinP_getLast? p name hnd] at h
    exact hns (List.mem_of_mem_getLast? h)
  · simpa using h

theorem pSlash_joinP (p name : String) (hs : simpleName name = true) :
    pSlash (joinP p name) = joinP p name ++ "/" := by
  unfold pSlash
  simp [joinP_not_endSlash p name hs]

theorem name_slash_cancel (n1 n2 s : String)
    (h1 : '/' ∉ n1.data) (h2 : '/' ∉ n2.data)
    (heq : n2 ++ "/" = n1 ++ "/" ++ s) : n1 = n2 := by
  have hd : n2.data ++ ['/'] = (n1.data ++ ['/']) ++ s.data := by
    have := congrArg String.data heq
    simpa [String.data_append] using this
  have hcount : s.data.count '/' = 0 := by
    have hc := congrArg (List.count '/') hd
    rw [List.count_append, List.count_append, List.count_append] at hc
    have hc1 : n1.data.count '/' = 0 := List.count_eq_zero.mpr h1
    have hc2 : n2.data.count '/' = 0 := List.count_eq_zero.mpr h2
    simp [hc1, hc2] at hc
    omega
  cases hsd : s.data with
  | nil =>
    rw [hsd, List.append_nil] at hd
    exact String.ext (List.append_cancel_right hd).symm
  | cons a l =>
    exfalso
    have hlast := congrArg List.getLast? hd
    rw [List.getLast?_concat, hsd, List.getLast?_append_of_ne_nil _ (by simp)] at hlast
    have hmem : '/' ∈ a :: l := List.mem_of_mem_getLast? hlast.symm
    rw [hsd] at hcount
    exact (List.count_eq_zero.mp hcount) hmem

theorem preorder_shape :
    ∀ (n : FSNode) (p q : String), q ∈ preorder p n → q = p ∨ sPre (pSlash p) q := by
  suffices H : ∀ (W : Nat) (n : FSNode), n.size ≤ W →
      ∀ p q : String, q ∈ preorder p n → q = p ∨ sPre (pSlash p) q by
    intro n p q h
    exact H n.size n le_rfl p q h
  intro W
  induction W with
  | zero =>
    intro n hw
    have := size_pos n
    omega
  | succ W ih =>
    intro n hw p q hq
    cases n with
    | dir cs =>
      rw [show preorder p (.dir cs) = p :: preorderChildren p cs from by simp [preorder]] at hq
      rcases List.mem_cons.mp hq with rfl | hq2
      · exact Or.inl rfl
      · obtain ⟨c, hc, hqc⟩ := (mem_preorderChildren p q cs).mp hq2
        have hsz : c.2.size ≤ W := by
          have h1 := sizeChild_le cs c hc
          simp [FSNode.size] at hw
          omega
        right
        rcases ih c.2 hsz (joinP p c.1) q hqc with rfl | hpre
        · exact ⟨c.1, rfl⟩
        · obtain ⟨s, hs⟩ := hpre
          obtain ⟨r, hr⟩ := pSlash_exists (joinP p c.1)
          refine ⟨c.1 ++ (r ++ s), ?_⟩
          rw [hs, hr]
          show joinP p c.1 ++ r ++ s = pSlash p ++ (c.1 ++ (r ++ s))
          rw [joinP, String.append_assoc, String.append_assoc]
    | file => left; simpa [preorder] using hq
    | symlink t => left; simpa [preorder] using hq
    | statErr code => left; simpa [preorder] using hq
    | readErr code => left; simpa [preorder] using hq

theorem chunks_disjoint (p : String) (a b : String × FSNode)
    (hsa : simpleName a.1 = true) (hsb : simpleName b.1 = true) (hne : a.1 ≠ b.1) :
    List.Disjoint (preorder (joinP p a.1) a.2) (preorder (joinP p b.1) b.2) := by
  intro q hqa hqb
  obtain ⟨hard, hasl⟩ := simpleName_data a.1 hsa
  obtain ⟨hbrd, hbsl⟩ := simpleName_data b.1 hsb
  have hA := preorder_shape a.2 (joinP p a.1) q hqa
  have hB := preorder_shape b.2 (joinP p b.1) q hqb
  rw [pSlash_joinP p a.1 hsa] at hA
  rw [pSlash_joinP p b.1 hsb] at hB
  have hmixed : ∀ (x y : String × FSNode), '/' ∉ x.1.data →
      ∀ t : String, joinP p x.1 = joinP p y.1 ++ "/" ++ t → False := by
    intro x y hx t hxy
    have : pSlash p ++ x.1 = pSlash p ++ (y.1 ++ ("/" ++ t)) := by
      rw [show pSlash p ++ (y.1 ++ ("/" ++ t)) = ((pSlash p ++ y.1) ++ "/") ++ t from by
        rw [String.append_assoc, String.append_assoc]]
      exact hxy
    have hcx := strCancelLeft _ _ _ this
    have hdx := congrArg String.data hcx
    rw [String.data_append] at hdx
    apply hx
    rw [hdx]
    exact List.mem_append.mpr (Or.inr (by rw [String.data_append]; simp))
  rcases hA with rfl | ⟨s, hs⟩
  · rcases hB with heq | ⟨t, ht⟩
    · exact hne (strCancelLeft (pSlash p) a.1 b.1 heq)
    · exact hmixed a b hasl t ht
  · rcases hB with heq | ⟨t, ht⟩
    · exact hmixed b a hbsl s (heq.symm.trans hs)
    · rcases sPre_comparable ⟨s, hs⟩ ⟨t, ht⟩ with ⟨u, hu⟩ | ⟨u, hu⟩
      · apply hne
        have : pSlash p ++ (b.1 ++ "/") = pSlash p ++ (a.1 ++ "/" ++ u) := by
          have h1 : (pSlash p ++ b.1) ++ "/" = ((pSlash p ++ a.1) ++ "/") ++ u := hu
          rw [String.append_assoc] at h1
          rw [h1]
          rw [String.append_assoc, String.append_assoc, String.append_assoc]
        have hcc := strCancelLeft _ _ _ this
        exact name_slash_cancel a.1 b.1 u hasl hbsl hcc
      · apply hne
        have : pSlash p ++ (a.1 ++ "/") = pSlash p ++ (b.1 ++ "/" ++ u) := by
          have h1 : (pSlash p ++ a.1) ++ "/" = ((pSlash p ++ b.1) ++ "/") ++ u := hu
          rw [String.append_assoc] at h1
          rw [h1]
          rw [String.append_assoc, String.append_assoc, String.append_assoc]
        have hcc := strCancelLeft _ _ _ this
        exact (name_slash_cancel b.1 a.1 u hbsl hasl hcc).symm

theorem distinctList_pairwise (xs : List String) (h : distinctList xs = true) :
    xs.Pairwise (fun a b => a ≠ b) := by
  induction xs with
  | nil => exact List.Pairwise.nil
  | cons x rest ih =>
    unfold distinctList at h
    rw [Bool.and_eq_true] at h
    refine List.Pairwise.cons ?_ (ih h.2)
    intro y hy hxy
    have hx : x ∉ rest := by
      have := h.1
      rw [contains_eq_decide_mem] at this
      simpa using this
    exact hx (hxy ▸ hy)

theorem childrenWf_spec (cs : List (String × FSNode)) :
    childrenWf cs = true ↔ ∀ c ∈ cs, simpleName c.1 = true ∧ c.2.wfNames = true := by
  induction cs with
  | nil => simp [childrenWf]
  | cons c rest ih =>
    obtain ⟨name, node⟩ := c
    simp [childrenWf, ih, Bool.and_eq_true]

theorem preorder_nodup :
    ∀ (n : FSNode) (p : String), n.wfNames = true → (preorder p n).Nodup := by
  suffices H : ∀ (W : Nat) (n : FSNode), n.size ≤ W →
      ∀ p : String, n.wfNames = true → (preorder p n).Nodup by
    intro n p h
    exact H n.size n le_rfl p h
  intro W
  induction W with
  | zero =>
    intro n hw
    have := size_pos n
    omega
  | succ W ih =>
    intro n hw p hwf
    cases n with
    | file => simp [preorder]
    | symlink t => simp [preorder]
    | statErr code => simp [preorder]
    | readErr code => simp [preorder]
    | dir cs =>
      have hsplit : distinctList (cs.map Prod.fst) = true ∧ childrenWf cs = true := by
        rw [FSNode.wfNames, Bool.and_eq_true] at hwf
        exact hwf
      obtain ⟨hdn, hcw⟩ := hsplit
      have hcspec := (childrenWf_spec cs).mp hcw
      rw [show preorder p (.dir cs) = p :: preorderChildren p cs from by simp [preorder]]
      rw [List.nodup_cons]
      constructor
      · intro hp
        obtain ⟨c, hc, hqc⟩ := (mem_preorderChildren p p cs).mp hp
        have hsimple := (hcspec c hc).1
        obtain ⟨hnd, _⟩ := simpleName_data c.1 hsimple
        rcases preorder_shape c.2 (joinP p c.1) p hqc with heq | hpre
        · have := joinP_length_gt p c.1 hnd
          rw [← heq] at this
          omega
        · have hle := sPre_length hpre
          have h1 := pSlash_length (joinP p c.1)
          have h2 := joinP_length_gt p c.1 hnd
          omega
      · rw [preorderChildren_eq_flatten, List.nodup_flatten]
        constructor
        · intro l hl
          obtain ⟨c, hc, rfl⟩ := List.mem_map.mp hl
          have hsz : c.2.size ≤ W := by
            have h1 := sizeChild_le cs c hc
            simp [FSNode.size] at hw
            omega
          exact ih c.2 hsz _ (hcspec c hc).2
        · rw [List.pairwise_map]
          have hpair : cs.Pairwise (fun a b => a.1 ≠ b.1) :=
            List.pairwise_map.mp (distinctList_pairwise _ hdn)
          refine List.Pairwise.imp_of_mem ?_ hpair
          intro a b ha hb hne
          exact chunks_disjoint p a b (hcspec a ha).1 (hcspec b hb).1 hne

theorem preorder_head_cons (p : String) (n : FSNode) : ∃ t, preorder p n = p :: t := by
  cases n <;> simp [preorder]

theorem heads_sublist_preorderChildren (cs : List (String × FSNode)) (p : String) :
    List.Sublist (cs.map fun c => joinP p c.1) (preorderChildren p cs) := by
  induction cs with
  | nil => simp [preorderChildren]
  | cons c rest ih =>
    obtain ⟨name, node⟩ := c
    rw [show preorderChildren p ((name, node) :: rest) =
        preorder (joinP p name) node ++ preorderChildren p rest from by simp [preorderChildren]]
    obtain ⟨t, ht⟩ := preorder_head_cons (joinP p name) node
    rw [ht, List.map_cons, List.cons_append]
    exact List.Sublist.cons₂ _ (List.Sublist.trans ih (List.sublist_append_right t _))

theorem chunk_sublist_preorder {p name : String} {m : FSNode} {cs : List (String × FSNode)}
    (hmem : (name, m) ∈ cs) :
    List.Sublist (preorder (joinP p name) m) (preorder p (.dir cs)) := by
  rw [show preorder p (.dir cs) = p :: preorderChildren p cs from by simp [preorder]]
  rw [preorderChildren_eq_flatten]
  exact List.Sublist.trans (List.sublist_flatten_of_mem
    (List.mem_map.mpr ⟨(name, m), hmem, rfl⟩)) (List.sublist_cons_self _ _)

theorem reach_dir_sublist {rp : String} {rn : FSNode} {p : String}
    {cs : List (String × FSNode)} (h : Reach rp rn p (.dir cs)) :
    List.Sublist (p :: cs.map fun c => joinP p c.1) (preorder rp rn) := by
  generalize hk : FSNode.dir cs = k at h
  induction h with
  | here q n =>
    subst hk
    rw [show preorder q (.dir cs) = q :: preorderChildren q cs from by simp [preorder]]
    exact List.Sublist.cons₂ _ (heads_sublist_preorderChildren cs q)
  | step hmem hrec ih =>
    exact List.Sublist.trans (ih hk) (chunk_sublist_preorder hmem)

/-- C3: on an existing, error-free snapshot with well-formed directory
listings, `find` succeeds and its output yields the (normalized) root path
first, contains a path exactly once precisely when it is reachable in the
subtree, and, for every reachable directory, lists the directory before its
children with the children's paths appearing in `readdir` order (the order
obtained by pushing child entries onto the explicit stack in reverse). -/
theorem find_traversal_contract (fs : FSNode) (root : String)
    (herr : fs.errorFree = true) (hwf : fs.wfNames = true) (hroot : root ≠ "") :
    ∃ l, find fs root = .ok l ∧
      l.head? = some (normalizePath root) ∧
      (∀ q, q ∈ l ↔ ∃ m, Reach (normalizePath root) fs q m) ∧
      l.Nodup ∧
      (∀ p cs, Reach (normalizePath root) fs p (.dir cs) →
        List.Sublist (p :: cs.map fun c => joinP p c.1) l) := by
  refine ⟨preorder (normalizePath root) fs, find_ok fs root herr hroot, ?_, ?_, ?_, ?_⟩
  · obtain ⟨t, ht⟩ := preorder_head_cons (normalizePath root) fs
    rw [ht]
    rfl
  · intro q
    exact ⟨mem_preorder_reach fs (normalizePath root) q, fun h => reach_mem_preorder h.choose_spec⟩
  · exact preorder_nodup fs (normalizePath root) hwf
  · intro p cs h
    exact reach_dir_sublist h

theorem find_traversal_contract_witness :
    ∃ l, find (FSNode.dir [("a", .dir [("c", .file)]), ("b", .file)]) "/r" = .ok l ∧
      l.head? = some (normalizePath "/r") ∧
      (∀ q, q ∈ l ↔ ∃ m, Reach (normalizePath "/r")
          (FSNode.dir [("a", .dir [("c", .file)]), ("b", .file)]) q m) ∧
      l.Nodup ∧
      (∀ p cs, Reach (normalizePath "/r")
            (FSNode.dir [("a", .dir [("c", .file)]), ("b", .file)]) p (.dir cs) →
          List.Sublist (p :: cs.map fun c => joinP p c.1) l) :=
  find_traversal_contract (FSNode.dir [("a", .dir [("c", .file)]), ("b", .file)]) "/r"
    (by decide) (by decide) (by decide)

theorem delinkChildren_map (cs : List (String × FSNode)) :
    delinkChildren cs = cs.map fun c => (c.1, delink c.2) := by
  induction cs with
  | nil => simp [delinkChildren]
  | cons c rest ih =>
    obtain ⟨name, node⟩ := c
    simp [delinkChildren, ih]

theorem findLoop_delink :
    ∀ (stack : List FindItem) (result : List String),
      findLoop (stack.map fun it => FindItem.mk it.path it.level (delink it.node)) result =
        findLoop stack result := by
  suffices H : ∀ (W : Nat) (stack : List FindItem), stackWeight stack ≤ W →
      ∀ result : List String,
      findLoop (stack.map fun it => FindItem.mk it.path it.level (delink it.node)) result =
        findLoop stack result by
    intro stack result
    exact H (stackWeight stack) stack le_rfl result
  intro W
  induction W with
  | zero =>
    intro stack hw result
    cases stack with
    | nil => simp
    | cons a rest =>
      exfalso
      have := size_pos a.node
      simp [stackWeight] at hw
      omega
  | succ W ih =>
    intro stack hw result
    cases stack with
    | nil => simp
    | cons it rest =>
      obtain ⟨p, lvl, node⟩ := it
      have hwrest : stackWeight rest ≤ W := by
        have := size_pos node
        simp [stackWeight] at hw
        omega
      cases node with
      | statErr code => simp [findLoop, delink]
      | readErr code => simp [findLoop, delink]
      | file =>
        simp only [List.map_cons, delink, findLoop]
        exact ih rest hwrest (result ++ [p])
      | symlink t =>
        simp only [List.map_cons, delink, findLoop]
        exact ih rest hwrest (result ++ [p])
      | dir cs =>
        simp only [List.map_cons, delink, findLoop]
        have hchild :
            (delinkChildren cs).map (fun c => FindItem.mk (joinP p c.1) (lvl + 1) c.2) =
              (cs.map fun c => FindItem.mk (joinP p c.1) (lvl + 1) c.2).map
                fun it => FindItem.mk it.path it.level (delink it.node) := by
          rw [delinkChildren_map, List.map_map, List.map_map]
          rfl
        rw [hchild]
        rw [show pushInReverse
            ((cs.map fun c => FindItem.mk (joinP p c.1) (lvl + 1) c.2).map
              fun it => FindItem.mk it.path it.level (delink it.node))
            (rest.map fun it => FindItem.mk it.path it.level (delink it.node)) =
            (pushInReverse (cs.map fun c => FindItem.mk (joinP p c.1) (lvl + 1) c.2) rest).map
              (fun it => FindItem.mk it.path it.level (delink it.node)) from by
          simp [pushInReverse]]
        have hwnew :
            stackWeight (pushInReverse (cs.map fun c => FindItem.mk (joinP p c.1) (lvl + 1) c.2)
              rest) ≤ W := by
          rw [pushInReverse, stackWeight_append, stackWeight_childItems]
          simp [stackWeight, FSNode.size] at hw
          omega
        exact ih _ hwnew (result ++ [p])

/-- C6: the traversal never follows a symbolic link when deciding whether
to recurse.  Replacing every symlink target in the snapshot by a plain file
(`delink`) does not change the result of `find` — the targets, and hence
the children of a symlink that resolves to a directory, are never
enumerated — and a symlink root behaves exactly like a plain file for any
target, directories included. -/
theorem find_never_follows_symlinks (fs t : FSNode) (root : String) :
    find (delink fs) root = find fs root ∧
    find (.symlink t) root = find .file root := by
  constructor
  · by_cases h : root = ""
    · simp [find, h]
    · cases fs with
      | statErr code => simp [find, h, delink]
      | file =>
        have := findLoop_delink [FindItem.mk (normalizePath root) 1 .file] []
        simpa [find, h, delink] using this
      | symlink s =>
        have := findLoop_delink [FindItem.mk (normalizePath root) 1 (.symlink s)] []
        simpa [find, h, delink] using this
      | readErr code =>
        have := findLoop_delink [FindItem.mk (normalizePath root) 1 (.readErr code)] []
        simpa [find, h, delink] using this
      | dir cs =>
        have := findLoop_delink [FindItem.mk (normalizePath root) 1 (.dir cs)] []
        simpa [find, h, delink] using this
  · by_cases h : root = ""
    · simp [find, h]
    · rw [find_ok (.symlink t) root rfl h, find_ok .file root rfl h]
      simp [preorder]

theorem childrenErrorFree_false (cs : List (String × FSNode))
    (h : childrenErrorFree cs = false) : ∃ c ∈ cs, c.2.errorFree = false := by
  by_contra hc
  push_neg at hc
  have hall : ∀ c ∈ cs, c.2.errorFree = true := by
    intro c hcc
    have := hc c hcc
    simpa using this
  rw [(childrenErrorFree_iff cs).mpr hall] at h
  exact absurd h (by simp)

theorem findLoop_err (rp : String) (rn : FSNode) :
    ∀ (W : Nat) (stack : List FindItem), stackWeight stack ≤ W →
      ∀ result : List String,
      (∀ it ∈ stack, Reach rp rn it.path it.node) →
      (∃ it ∈ stack, it.node.errorFree = false) →
      ∃ p e, (Reach rp rn p (.statErr e) ∧
          findLoop stack result = .error ("Failed find: " ++ lstatFailMsg e p)) ∨
        (Reach rp rn p (.readErr e) ∧
          findLoop stack result = .error ("Failed find: " ++ scandirFailMsg e p)) := by
  intro W
  induction W with
  | zero =>
    intro stack hw result hreach hbad
    cases stack with
    | nil =>
      obtain ⟨x, hx, _⟩ := hbad
      cases hx
    | cons a rest =>
      exfalso
      have := size_pos a.node
      simp [stackWeight] at hw
      omega
  | succ W ih =>
    intro stack hw result hreach hbad
    cases stack with
    | nil =>
      obtain ⟨x, hx, _⟩ := hbad
      cases hx
    | cons it rest =>
      obtain ⟨p, lvl, node⟩ := it
      have hreachhead : Reach rp rn p node := hreach ⟨p, lvl, node⟩ (by simp)
      have hreachrest : ∀ x ∈ rest, Reach rp rn x.path x.node :=
        fun x hx => hreach x (List.mem_cons_of_mem _ hx)
      have hwrest : stackWeight rest ≤ W := by
        have := size_pos node
        simp [stackWeight] at hw
        omega
      cases node with
      | statErr code =>
        refine ⟨p, code, Or.inl ⟨hreachhead, ?_⟩⟩
        simp [findLoop]
      | readErr code =>
        refine ⟨p, code, Or.inr ⟨hreachhead, ?_⟩⟩
        simp [findLoop]
      | file =>
        have hbad2 : ∃ x ∈ rest, x.node.errorFree = false := by
          obtain ⟨x, hx, hxb⟩ := hbad
          rcases List.mem_cons.mp hx with rfl | hxr
          · simp [FSNode.errorFree] at hxb
          · exact ⟨x, hxr, hxb⟩
        rw [show findLoop (⟨p, lvl, .file⟩ :: rest) result = findLoop rest (result ++ [p])
          from by simp [findLoop]]
        exact ih rest hwrest _ hreachrest hbad2
      | symlink t =>
        have hbad2 : ∃ x ∈ rest, x.node.errorFree = false := by
          obtain ⟨x, hx, hxb⟩ := hbad
          rcases List.mem_cons.mp hx with rfl | hxr
          · simp [FSNode.errorFree] at hxb
          · exact ⟨x, hxr, hxb⟩
        rw [show findLoop (⟨p, lvl, .symlink t⟩ :: rest) result = findLoop rest (result ++ [p])
          from by simp [findLoop]]
        exact ih rest hwrest _ hreachrest hbad2
      | dir cs =>
        have hreachnew : ∀ x ∈ pushInReverse
            (cs.map fun c => FindItem.mk (joinP p c.1) (lvl + 1) c.2) rest,
            Reach rp rn x.path x.node := by
          intro x hx
          rcases List.mem_append.mp hx with hm | hm
          · obtain ⟨c, hc, rfl⟩ := List.mem_map.mp hm
            exact reach_extend hreachhead (by rcases c with ⟨n1, n2⟩; exact hc)
          · exact hreachrest x hm
        have hwnew : stackWeight (pushInReverse
            (cs.map fun c => FindItem.mk (joinP p c.1) (lvl + 1) c.2) rest) ≤ W := by
          rw [pushInReverse, stackWeight_append, stackWeight_childItems]
          simp [stackWeight, FSNode.size] at hw
          omega
        have hbadnew : ∃ x ∈ pushInReverse
            (cs.map fun c => FindItem.mk (joinP p c.1) (lvl + 1) c.2) rest,
            x.node.errorFree = false := by
          obtain ⟨x, hx, hxb⟩ := hbad
          rcases List.mem_cons.mp hx with rfl | hxr
          · rw [FSNode.errorFree] at hxb
            obtain ⟨c, hc, hcb⟩ := childrenErrorFree_false cs hxb
            refine ⟨FindItem.mk (joinP p c.1) (lvl + 1) c.2, ?_, hcb⟩
            exact List.mem_append.mpr (Or.inl (List.mem_map.mpr ⟨c, hc, rfl⟩))
          · exact ⟨x, List.mem_append.mpr (Or.inr hxr), hxb⟩
        rw [show findLoop (⟨p, lvl, .dir cs⟩ :: rest) result =
            findLoop (pushInReverse (cs.map fun c => FindItem.mk (joinP p c.1) (lvl + 1) c.2)
              rest) (result ++ [p])
          from by simp [findLoop]]
        exact ih _ hwnew _ hreachnew hbadnew

/-- C7: an unexpected stat or directory-read error raised while processing
a queued entry (after the initial existence check, which excludes the case
of a stat-failing root) aborts the entire walk: `find` returns an error
that wraps the underlying failure message behind the `Failed find: ` prefix
and carries the offending (reachable) path inside the message. -/
theorem find_aborts_on_error (fs : FSNode) (root : String) (hroot : root ≠ "")
    (hnotstat : ∀ c, fs ≠ .statErr c) (hbad : fs.errorFree = false) :
    ∃ p e, (Reach (normalizePath root) fs p (.statErr e) ∧
        find fs root = .error ("Failed find: " ++ lstatFailMsg e p)) ∨
      (Reach (normalizePath root) fs p (.readErr e) ∧
        find fs root = .error ("Failed find: " ++ scandirFailMsg e p)) := by
  have hloop := findLoop_err (normalizePath root) fs
    (stackWeight [FindItem.mk (normalizePath root) 1 fs])
    [FindItem.mk (normalizePath root) 1 fs] le_rfl []
    (by intro it hit; simp at hit; subst hit; exact Reach.here _ _)
    ⟨FindItem.mk (normalizePath root) 1 fs, by simp, hbad⟩
  cases fs with
  | statErr code => exact absurd rfl (hnotstat code)
  | file => simp [FSNode.errorFree] at hbad
  | symlink t => simp [FSNode.errorFree] at hbad
  | readErr code => simpa [find, hroot] using hloop
  | dir cs => simpa [find, hroot] using hloop

theorem find_aborts_on_error_witness :
    ∃ p e, (Reach (normalizePath "/r") (FSNode.readErr "EACCES") p (.statErr e) ∧
        find (FSNode.readErr "EACCES") "/r" = .error ("Failed find: " ++ lstatFailMsg e p)) ∨
      (Reach (normalizePath "/r") (FSNode.readErr "EACCES") p (.readErr e) ∧
        find (FSNode.readErr "EACCES") "/r" = .error ("Failed find: " ++ scandirFailMsg e p)) :=
  find_aborts_on_error (FSNode.readErr "EACCES") "/r" (by decide)
    (fun c h => FSNode.noConfusion h) rfl
